import Mathlib

/-!
Shallow embedding of the `gcr` crate (`src/lib.rs`): a Generic Cell Rate
rate limiter over a monotonic clock.

Modelling conventions:
* `Duration` is a count of nanoseconds as a `ℕ`; a valid Rust `Duration`
  is at most `DMAX = 2^64 * 10^9 - 1` nanoseconds, and `Duration`
  arithmetic that overflows this bound panics (`Duration::mul`).
* `Instant` is a count of nanoseconds since the monotonic clock's earliest
  representable instant, as a `ℕ`.  `Instant::checked_sub` fails below
  that origin.  (The far-future overflow of `Instant + Duration` is not
  modelled; it is unreachable for realistic clock values.)
* `u32` values are naturals; the `as u32` cast of an `f64` saturates at
  `U32MAX` and maps NaN to `0`, as in Rust.
* Rust functions that can panic are modelled with `RustResult`, which has
  an explicit `panics` outcome beside `ok` and `err`.
* `Duration::div_duration_f64` performs IEEE-754 binary64 arithmetic.
  Every `f64` value occurring in this program is a nonnegative integer
  (second counts, nanosecond counts, and their products and sums), so the
  binary64 data is modelled as `ℕ` and each rounding step is the exact
  round-to-nearest, ties-to-even rounding of an integer or of an integer
  quotient to 53 significant bits.
-/

/-- Maximum number of nanoseconds representable in a Rust `Duration`
(`u64` seconds plus nanoseconds below `10^9`). -/
def DMAX : ℕ := 2 ^ 64 * 10 ^ 9 - 1

/-- Largest `u32` value. -/
def U32MAX : ℕ := 2 ^ 32 - 1

/-- Fuel-driven base-2 logarithm on naturals: `log2F f n` is the floor of
`log₂ n` provided `n < 2 ^ f` (and `0` for `n = 0`). -/
def log2F : ℕ → ℕ → ℕ
  | 0, _ => 0
  | f + 1, n => if n ≤ 1 then 0 else log2F f (n / 2) + 1

/-- Floor of `log₂ n`, valid for `n < 2 ^ 192`, which covers every number
appearing in this development. -/
def natLog2 (n : ℕ) : ℕ := log2F 192 n

/-- Round the rational `a / b` to the nearest integer, ties to even:
the rounding used by IEEE-754 binary64 arithmetic. -/
def rneDiv (a b : ℕ) : ℕ :=
  if 2 * (a % b) < b then a / b
  else if b < 2 * (a % b) then a / b + 1
  else if (a / b) % 2 = 0 then a / b else a / b + 1

/-- Candidate selection for `ilog2q`: keep the candidate exponent `e`
when `2 ^ e ≤ x / y`, otherwise step down by one. -/
def ilog2qAux (x y : ℕ) (e : ℤ) : ℤ :=
  if (if 0 ≤ e then y * 2 ^ e.toNat ≤ x else y ≤ x * 2 ^ (-e).toNat) then e
  else e - 1

/-- Floor of `log₂ (x / y)` as an integer, for `1 ≤ x` and `1 ≤ y`. -/
def ilog2q (x y : ℕ) : ℤ :=
  ilog2qAux x y ((natLog2 x : ℤ) - (natLog2 y : ℤ))

/-- IEEE-754 binary64 rounding (round to nearest, ties to even) of a
nonnegative integer value.  Integers below `2 ^ 53` are exactly
representable and unchanged; larger ones are rounded to a multiple of
`2 ^ (e - 52)` where `e` is the exponent. -/
def roundNatF64 (n : ℕ) : ℕ :=
  if natLog2 n ≤ 52 then n
  else rneDiv n (2 ^ (natLog2 n - 52)) * 2 ^ (natLog2 n - 52)

/-- Round the quotient `x / y` to a multiple of `2 ^ s` (round to
nearest, ties to even) and truncate the result toward zero. -/
def f64DivTruncAux (x y : ℕ) (s : ℤ) : ℕ :=
  if 0 ≤ s then rneDiv x (y * 2 ^ s.toNat) * 2 ^ s.toNat
  else rneDiv (x * 2 ^ (-s).toNat) y / 2 ^ (-s).toNat

/-- Truncation toward zero (the `as u32` direction, before saturation) of
the IEEE-754 binary64 quotient of the integers `x / y`, for `y ≠ 0`:
rounding at scale `s = e - 52` where `e` is the quotient's exponent
(clamped at the subnormal exponent `-1074`), then truncation. -/
def f64DivTrunc (x y : ℕ) : ℕ :=
  if x = 0 then 0
  else f64DivTruncAux x y (max (ilog2q x y - 52) (-1074))

/-- The binary64 value of a `Duration` of `d` nanoseconds as computed by
`Duration::div_duration_f64`'s operand conversion:
`(secs as f64) * (NANOS_PER_SEC as f64) + (subsec_nanos as f64)`, with
rounding after the multiplication and the addition.  All intermediate
values are nonnegative integers. -/
def durNanosF64 (d : ℕ) : ℕ :=
  roundNatF64 (roundNatF64 (roundNatF64 (d / 10 ^ 9) * roundNatF64 (10 ^ 9))
    + roundNatF64 (d % 10 ^ 9))

/-- Model of `time_since.div_duration_f64(emission_interval) as u32` on
durations of `a` and `b` nanoseconds: binary64 division followed by the
saturating `as u32` cast (NaN, from `0.0 / 0.0`, casts to `0`; positive
infinity, from `x / 0.0` with `x > 0`, saturates to `U32MAX`). -/
def divDurF64U32 (a b : ℕ) : ℕ :=
  if durNanosF64 b = 0 then (if durNanosF64 a = 0 then 0 else U32MAX)
  else min (f64DivTrunc (durNanosF64 a) (durNanosF64 b)) U32MAX

/-- Model of `GcrCreationError` (`src/lib.rs`); the descriptive message
string is not modelled. -/
inductive GcrCreationError where
  | ParametersOutOfRange : GcrCreationError
deriving DecidableEq

/-- Model of `GcrRequestError` (`src/lib.rs`); the `DeniedFor` payload is
a duration in nanoseconds, and message strings are not modelled. -/
inductive GcrRequestError where
  | DeniedFor : ℕ → GcrRequestError
  | RequestTooLarge : GcrRequestError
  | ParametersOutOfRange : GcrRequestError
deriving DecidableEq

/-- Outcome of a Rust call: a success value, a returned error value, or a
panic (abnormal termination). -/
inductive RustResult (ε α : Type) where
  | ok : α → RustResult ε α
  | err : ε → RustResult ε α
  | panics : RustResult ε α
deriving DecidableEq

/-- Model of `Duration::checked_div(u32)`: `None` exactly when the
divisor is zero; otherwise floor division of the nanosecond count. -/
def durCheckedDiv (d r : ℕ) : Option ℕ :=
  if r = 0 then none else some (d / r)

/-- Model of `Duration * u32` (also `u32 * Duration`): panics (`none`)
when the product exceeds the `Duration` range. -/
def durMulU32 (d n : ℕ) : Option ℕ :=
  if d * n ≤ DMAX then some (d * n) else none

/-- Model of `Instant::checked_sub(Duration)`: `None` when the result
would precede the clock origin. -/
def instantCheckedSub (t d : ℕ) : Option ℕ :=
  if d ≤ t then some (t - d) else none

/-- Model of `later.checked_duration_since(earlier)`: `Some` of the
elapsed time when `earlier ≤ later` (including `Some 0` at equality),
`None` otherwise. -/
def instantCheckedDurationSince (t e : ℕ) : Option ℕ :=
  if e ≤ t then some (t - e) else none

/-- Model of the `Gcr` struct (`src/lib.rs`): durations and instants in
nanoseconds. -/
structure Gcr where
  emission_interval : ℕ
  delay_tolerance : ℕ
  theoretical_arrival_time : ℕ
  allow_at : ℕ
  max_burst : ℕ
deriving DecidableEq

/-- Model of `Gcr::new`, with the clock reading `Instant::now()` passed
explicitly as `now`.  Follows the source order: the checked division by
`rate`, the defaulting of `max_burst`, the panicking multiplication
computing `delay_tolerance`, then the checked subtraction computing
`allow_at`. -/
def Gcr.new (rate period : ℕ) (max_burst : Option ℕ) (now : ℕ) :
    RustResult GcrCreationError Gcr :=
  match durCheckedDiv period rate with
  | none => .err .ParametersOutOfRange
  | some ei =>
    let mb := max_burst.getD rate
    match durMulU32 ei mb with
    | none => .panics
    | some dt =>
      match instantCheckedSub now dt with
      | none => .err .ParametersOutOfRange
      | some aa =>
        .ok { emission_interval := ei, delay_tolerance := dt,
              theoretical_arrival_time := now, allow_at := aa,
              max_burst := mb }

/-- Model of `Gcr::capacity_at`: zero when `now` precedes `allow_at`,
otherwise the minimum of the binary64 interval count and `max_burst`. -/
def Gcr.capacity_at (g : Gcr) (now : ℕ) : ℕ :=
  match instantCheckedDurationSince now g.allow_at with
  | none => 0
  | some time_since => min (divDurF64U32 time_since g.emission_interval) g.max_burst

/-- Model of `Gcr::request`, with the clock reading passed as `now`.
Success carries the updated limiter state (the Rust method mutates in
place and returns `Ok(())`). -/
def Gcr.request (g : Gcr) (n now : ℕ) : RustResult GcrRequestError Gcr :=
  if g.max_burst < n then .err .RequestTooLarge
  else
    match (if g.capacity_at now < n then
        match durMulU32 g.emission_interval n with
        | none => RustResult.panics
        | some nei =>
          match instantCheckedDurationSince (g.allow_at + nei) now with
          | some d => RustResult.err (GcrRequestError.DeniedFor d)
          | none => RustResult.ok ()
      else RustResult.ok ()) with
    | .panics => .panics
    | .err e => .err e
    | .ok _ =>
      match durMulU32 g.emission_interval n with
      | none => .panics
      | some nei =>
        let tat := max g.theoretical_arrival_time now + nei
        match instantCheckedSub tat g.delay_tolerance with
        | none => .err .ParametersOutOfRange
        | some aa =>
          .ok { g with theoretical_arrival_time := tat, allow_at := aa }

/-- Model of `Gcr::adjust`.  The Rust method reads the clock twice: once
inside `Gcr::new` (`tNew`) and once for the canonical `now`; under a
monotonic clock `tNew ≤ now`.  Success carries the replacement state. -/
def Gcr.adjust (g : Gcr) (rate period : ℕ) (max_burst : Option ℕ)
    (tNew now : ℕ) : RustResult GcrCreationError Gcr :=
  match Gcr.new rate period max_burst tNew with
  | .panics => .panics
  | .err e => .err e
  | .ok nr =>
    match instantCheckedDurationSince now g.allow_at with
    | some time_since =>
      let k := divDurF64U32 time_since g.emission_interval
      match durMulU32 nr.emission_interval k with
      | none => .panics
      | some adv =>
        match instantCheckedSub now adv with
        | none => .err .ParametersOutOfRange
        | some aa =>
          .ok { nr with
                theoretical_arrival_time := aa + nr.delay_tolerance,
                allow_at := aa }
    | none => .ok nr

/-- State invariant established by `Gcr::new` and preserved by the other
operations: `delay_tolerance` is the product `emission_interval *
max_burst` and a valid `Duration`, the cursor trails `allow_at` by
exactly `delay_tolerance`, and `max_burst` is a `u32` value. -/
def Gcr.Inv (g : Gcr) : Prop :=
  g.delay_tolerance = g.emission_interval * g.max_burst ∧
  g.delay_tolerance ≤ DMAX ∧
  g.delay_tolerance ≤ g.theoretical_arrival_time ∧
  g.allow_at = g.theoretical_arrival_time - g.delay_tolerance ∧
  g.max_burst < 2 ^ 32

instance (g : Gcr) : Decidable g.Inv := by
  unfold Gcr.Inv; infer_instance

/-! ### Correctness of the base-2 logarithm helpers -/

theorem log2F_spec : ∀ f n : ℕ, 0 < n → n < 2 ^ f →
    2 ^ log2F f n ≤ n ∧ n < 2 ^ (log2F f n + 1) := by
  intro f
  induction f with
  | zero =>
    intro n h1 h2
    simp only [pow_zero] at h2
    omega
  | succ f ih =>
    intro n h1 h2
    rw [log2F]
    split_ifs with h
    · constructor
      · simpa using h1
      · simpa using by omega
    · push_neg at h
      have hdiv : n / 2 < 2 ^ f := by
        rw [Nat.div_lt_iff_lt_mul (by norm_num)]
        calc n < 2 ^ (f + 1) := h2
          _ = 2 ^ f * 2 := by rw [pow_succ]
      have hpos : 0 < n / 2 := by omega
      obtain ⟨ha, hb⟩ := ih (n / 2) hpos hdiv
      have e1 : 2 ^ (log2F f (n / 2) + 1) = 2 ^ log2F f (n / 2) * 2 := by
        rw [pow_succ]
      have e2 : 2 ^ (log2F f (n / 2) + 1 + 1) = 2 ^ log2F f (n / 2) * 4 := by
        rw [pow_succ, pow_succ]; ring
      rw [e1] at hb ⊢
      rw [e2]
      omega

theorem natLog2_spec (n : ℕ) (h1 : 0 < n) (h2 : n < 2 ^ 192) :
    2 ^ natLog2 n ≤ n ∧ n < 2 ^ (natLog2 n + 1) :=
  log2F_spec 192 n h1 h2

theorem natLog2_le_52 (n : ℕ) (h : n < 2 ^ 53) : natLog2 n ≤ 52 := by
  rcases Nat.eq_zero_or_pos n with h0 | h0
  · subst h0; simp [natLog2, log2F]
  · obtain ⟨hl, _⟩ := natLog2_spec n h0 (lt_trans h (by norm_num))
    by_contra hgt
    push_neg at hgt
    have : 2 ^ 53 ≤ 2 ^ natLog2 n := Nat.pow_le_pow_right (by norm_num) hgt
    omega

/-- An integer below `2 ^ 53` is exactly representable in binary64. -/
theorem roundNatF64_eq_self (n : ℕ) (h : n < 2 ^ 53) : roundNatF64 n = n := by
  unfold roundNatF64
  rw [if_pos (natLog2_le_52 n h)]

/-! ### Bounds for round-to-nearest-even of integer quotients -/

theorem rneDiv_ge (a b : ℕ) (hb : 0 < b) :
    (a : ℚ) / b - 1 / 2 ≤ rneDiv a b := by
  have hb' : (0 : ℚ) < b := by exact_mod_cast hb
  have hmod : (a : ℚ) = b * ((a / b : ℕ) : ℚ) + ((a % b : ℕ) : ℚ) := by
    exact_mod_cast (Nat.div_add_mod a b).symm
  have expand : (a : ℚ) / b = ((a / b : ℕ) : ℚ) + ((a % b : ℕ) : ℚ) / b := by
    rw [hmod]; field_simp; ring
  have hfr0 : (0 : ℚ) ≤ ((a % b : ℕ) : ℚ) / b := by positivity
  have hfr1 : ((a % b : ℕ) : ℚ) / b < 1 := by
    rw [div_lt_iff₀ hb']
    simpa using (by exact_mod_cast Nat.mod_lt a hb : ((a % b : ℕ) : ℚ) < b)
  unfold rneDiv
  split_ifs with h1 h2 h3
  · have hlt : ((a % b : ℕ) : ℚ) / b < 1 / 2 := by
      rw [div_lt_iff₀ hb']
      have h1' : (2 : ℚ) * ((a % b : ℕ) : ℚ) < b := by exact_mod_cast h1
      linarith
    rw [expand]; linarith
  · push_cast
    rw [expand]; linarith
  · have heq : ((a % b : ℕ) : ℚ) / b = 1 / 2 := by
      rw [div_eq_iff (ne_of_gt hb')]
      have h4 : 2 * (a % b) = b := by omega
      have h4' : (2 : ℚ) * ((a % b : ℕ) : ℚ) = b := by exact_mod_cast h4
      linarith
    rw [expand]; linarith
  · push_cast
    rw [expand]; linarith

theorem rneDiv_le (a b : ℕ) (hb : 0 < b) :
    (rneDiv a b : ℚ) ≤ (a : ℚ) / b + 1 / 2 := by
  have hb' : (0 : ℚ) < b := by exact_mod_cast hb
  have hmod : (a : ℚ) = b * ((a / b : ℕ) : ℚ) + ((a % b : ℕ) : ℚ) := by
    exact_mod_cast (Nat.div_add_mod a b).symm
  have expand : (a : ℚ) / b = ((a / b : ℕ) : ℚ) + ((a % b : ℕ) : ℚ) / b := by
    rw [hmod]; field_simp; ring
  have hfr0 : (0 : ℚ) ≤ ((a % b : ℕ) : ℚ) / b := by positivity
  unfold rneDiv
  split_ifs with h1 h2 h3
  · rw [expand]; linarith
  · have hgt : (1 : ℚ) / 2 < ((a % b : ℕ) : ℚ) / b := by
      rw [lt_div_iff₀ hb']
      have h2' : (b : ℚ) < 2 * ((a % b : ℕ) : ℚ) := by exact_mod_cast h2
      linarith
    push_cast
    rw [expand]; linarith
  · rw [expand]; linarith
  · have heq : ((a % b : ℕ) : ℚ) / b = 1 / 2 := by
      rw [div_eq_iff (ne_of_gt hb')]
      have h4 : 2 * (a % b) = b := by omega
      have h4' : (2 : ℚ) * ((a % b : ℕ) : ℚ) = b := by exact_mod_cast h4
      linarith
    push_cast
    rw [expand]; linarith

theorem rneDiv_dvd (a b : ℕ) (hb : 0 < b) (h : b ∣ a) : rneDiv a b = a / b := by
  obtain ⟨c, rfl⟩ := h
  unfold rneDiv
  rw [Nat.mul_mod_right]
  simp [hb]

/-! ### Correctness of the quotient exponent `ilog2q` -/

theorem zpow2_toNat (e : ℤ) (he : 0 ≤ e) :
    ((2 ^ e.toNat : ℕ) : ℚ) = (2 : ℚ) ^ e := by
  have h1 : (2 : ℚ) ^ e = (2 : ℚ) ^ (e.toNat : ℤ) := by
    rw [Int.toNat_of_nonneg he]
  rw [h1, zpow_natCast]
  push_cast
  ring

theorem ilog2q_test_iff (x y : ℕ) (hy : 0 < y) (e : ℤ) :
    (if 0 ≤ e then y * 2 ^ e.toNat ≤ x else y ≤ x * 2 ^ (-e).toNat) ↔
      (2 : ℚ) ^ e ≤ (x : ℚ) / y := by
  have hy' : (0 : ℚ) < y := by exact_mod_cast hy
  split_ifs with he
  · rw [le_div_iff₀ hy', ← zpow2_toNat e he, ← Nat.cast_mul, Nat.cast_le,
      mul_comm]
  · push_neg at he
    have ht : (0 : ℚ) < ((2 ^ (-e).toNat : ℕ) : ℚ) := by positivity
    have ht2 : (2 : ℚ) ^ e = (((2 ^ (-e).toNat : ℕ) : ℚ))⁻¹ := by
      rw [zpow2_toNat (-e) (by omega), ← zpow_neg, neg_neg]
    rw [ht2, ← one_div, div_le_div_iff₀ ht hy', one_mul, ← Nat.cast_mul,
      Nat.cast_le]

theorem ilog2q_spec (x y : ℕ) (hx : 0 < x) (hy : 0 < y)
    (hx2 : x < 2 ^ 192) (hy2 : y < 2 ^ 192) :
    (2 : ℚ) ^ ilog2q x y ≤ (x : ℚ) / y ∧
      (x : ℚ) / y < (2 : ℚ) ^ (ilog2q x y + 1) := by
  have hy' : (0 : ℚ) < y := by exact_mod_cast hy
  obtain ⟨hxl, hxu⟩ := natLog2_spec x hx hx2
  obtain ⟨hyl, hyu⟩ := natLog2_spec y hy hy2
  have hxl' : (2 : ℚ) ^ (natLog2 x : ℤ) ≤ x := by
    rw [zpow_natCast]; exact_mod_cast hxl
  have hxu' : (x : ℚ) < (2 : ℚ) ^ ((natLog2 x : ℤ) + 1) := by
    have h1 : (x : ℚ) < (2 : ℚ) ^ (natLog2 x + 1) := by exact_mod_cast hxu
    rw [show (natLog2 x : ℤ) + 1 = ((natLog2 x + 1 : ℕ) : ℤ) by push_cast; ring,
      zpow_natCast]
    exact h1
  have hyl' : (2 : ℚ) ^ (natLog2 y : ℤ) ≤ y := by
    rw [zpow_natCast]; exact_mod_cast hyl
  have hyu' : (y : ℚ) < (2 : ℚ) ^ ((natLog2 y : ℤ) + 1) := by
    have h1 : (y : ℚ) < (2 : ℚ) ^ (natLog2 y + 1) := by exact_mod_cast hyu
    rw [show (natLog2 y : ℤ) + 1 = ((natLog2 y + 1 : ℕ) : ℤ) by push_cast; ring,
      zpow_natCast]
    exact h1
  have h2ne : (2 : ℚ) ≠ 0 := by norm_num
  have hupper : (x : ℚ) / y <
      (2 : ℚ) ^ (((natLog2 x : ℤ) - (natLog2 y : ℤ)) + 1) := by
    rw [div_lt_iff₀ hy']
    calc (x : ℚ) < (2 : ℚ) ^ ((natLog2 x : ℤ) + 1) := hxu'
      _ = (2 : ℚ) ^ (((natLog2 x : ℤ) - (natLog2 y : ℤ)) + 1) *
            (2 : ℚ) ^ (natLog2 y : ℤ) := by
          rw [← zpow_add₀ h2ne]; ring_nf
      _ ≤ (2 : ℚ) ^ (((natLog2 x : ℤ) - (natLog2 y : ℤ)) + 1) * y := by
          apply mul_le_mul_of_nonneg_left hyl'
          positivity
  have hlower : (2 : ℚ) ^ (((natLog2 x : ℤ) - (natLog2 y : ℤ)) - 1) <
      (x : ℚ) / y := by
    rw [lt_div_iff₀ hy']
    calc (2 : ℚ) ^ (((natLog2 x : ℤ) - (natLog2 y : ℤ)) - 1) * y <
          (2 : ℚ) ^ (((natLog2 x : ℤ) - (natLog2 y : ℤ)) - 1) *
            (2 : ℚ) ^ ((natLog2 y : ℤ) + 1) := by
          apply mul_lt_mul_of_pos_left hyu'
          positivity
      _ = (2 : ℚ) ^ (natLog2 x : ℤ) := by rw [← zpow_add₀ h2ne]; ring_nf
      _ ≤ x := hxl'
  unfold ilog2q ilog2qAux
  by_cases htest :
      (2 : ℚ) ^ ((natLog2 x : ℤ) - (natLog2 y : ℤ)) ≤ (x : ℚ) / y
  · rw [if_pos ((ilog2q_test_iff x y hy _).2 htest)]
    exact ⟨htest, hupper⟩
  · rw [if_neg (fun h => htest ((ilog2q_test_iff x y hy _).1 h))]
    refine ⟨le_of_lt hlower, ?_⟩
    have harith : (natLog2 x : ℤ) - (natLog2 y : ℤ) - 1 + 1 =
        (natLog2 x : ℤ) - (natLog2 y : ℤ) := by ring
    rw [harith]
    push_neg at htest
    exact htest

/-! ### Exactness of the binary64 quotient in the sub-`2^53` range -/

theorem f64DivTrunc_eq_div (x y : ℕ) (hx : x < 2 ^ 53) (hy : 0 < y)
    (hy53 : y < 2 ^ 53) : f64DivTrunc x y = x / y := by
  rcases Nat.eq_zero_or_pos x with hx0 | hx0
  · subst hx0
    unfold f64DivTrunc
    simp [Nat.zero_div]
  have hy' : (0 : ℚ) < y := by exact_mod_cast hy
  have h2ne : (2 : ℚ) ≠ 0 := by norm_num
  obtain ⟨hel, heu⟩ := ilog2q_spec x y hx0 hy
    (lt_trans hx (by norm_num)) (lt_trans hy53 (by norm_num))
  obtain ⟨e, he_def⟩ : ∃ e, ilog2q x y = e := ⟨_, rfl⟩
  rw [he_def] at hel heu
  have hp53 : (2 : ℚ) ^ (53 : ℤ) = ((2 ^ 53 : ℕ) : ℚ) :=
    (zpow2_toNat 53 (by norm_num)).symm
  have hx53 : (x : ℚ) < (2 : ℚ) ^ (53 : ℤ) := by
    rw [hp53]; exact_mod_cast hx
  have hy53' : (y : ℚ) < (2 : ℚ) ^ (53 : ℤ) := by
    rw [hp53]; exact_mod_cast hy53
  have hmul_el : (2 : ℚ) ^ e * y ≤ x := (le_div_iff₀ hy').1 hel
  have hx1 : (1 : ℚ) ≤ x := by exact_mod_cast hx0
  -- the exponent is at most 52
  have he_le : e ≤ 52 := by
    by_contra hcon
    push_neg at hcon
    have h1 : (2 : ℚ) ^ (53 : ℤ) ≤ (2 : ℚ) ^ e :=
      zpow_le_zpow_right₀ (by norm_num) (by omega)
    have h2 : (x : ℚ) / y ≤ x := by
      apply div_le_self (by positivity)
      exact_mod_cast hy
    linarith
  -- the exponent is at least -53
  have he_ge : -53 ≤ e := by
    have h3 : (2 : ℚ) ^ (-53 : ℤ) * (2 : ℚ) ^ (53 : ℤ) = 1 := by
      rw [← zpow_add₀ h2ne]; norm_num
    have h1 : (2 : ℚ) ^ (-53 : ℤ) * y < 1 * x := by
      have h2 : (2 : ℚ) ^ (-53 : ℤ) * y <
          (2 : ℚ) ^ (-53 : ℤ) * (2 : ℚ) ^ (53 : ℤ) := by
        apply mul_lt_mul_of_pos_left hy53'
        positivity
      rw [one_mul]
      calc (2 : ℚ) ^ (-53 : ℤ) * y < 1 := by rw [← h3]; exact h2
        _ ≤ x := hx1
    have h4 : (2 : ℚ) ^ (-53 : ℤ) < (x : ℚ) / y := by
      rw [lt_div_iff₀ hy']
      simpa using h1
    have h5 : (2 : ℚ) ^ (-53 : ℤ) < (2 : ℚ) ^ (e + 1) := lt_trans h4 heu
    have h6 : (-53 : ℤ) < e + 1 :=
      (zpow_lt_zpow_iff_right₀ (by norm_num)).1 h5
    omega
  have hs_max : max (e - 52) (-1074) = e - 52 := max_eq_left (by omega)
  unfold f64DivTrunc
  rw [if_neg (by omega), he_def, hs_max]
  -- the key gap bound: 2 ^ (e - 53) * y < 1
  have hgap : (2 : ℚ) ^ (e - 53) * y < 1 := by
    have h1 : (2 : ℚ) ^ e * y < (2 : ℚ) ^ (53 : ℤ) := lt_of_le_of_lt hmul_el hx53
    have h2 : (2 : ℚ) ^ (e - 53) = (2 : ℚ) ^ e * (2 : ℚ) ^ (-53 : ℤ) := by
      rw [← zpow_add₀ h2ne]; ring_nf
    have h3 : (2 : ℚ) ^ (53 : ℤ) * (2 : ℚ) ^ (-53 : ℤ) = 1 := by
      rw [← zpow_add₀ h2ne]; norm_num
    have h4 : (0 : ℚ) < (2 : ℚ) ^ (-53 : ℤ) := by positivity
    calc (2 : ℚ) ^ (e - 53) * y = (2 : ℚ) ^ e * y * (2 : ℚ) ^ (-53 : ℤ) := by
          rw [h2]; ring
      _ < (2 : ℚ) ^ (53 : ℤ) * (2 : ℚ) ^ (-53 : ℤ) :=
          mul_lt_mul_of_pos_right h1 h4
      _ = 1 := h3
  by_cases hdvd : y ∣ x
  · -- exactly divisible: the quotient is an integer below 2 ^ 53 and is
    -- exactly representable, so rounding does not move it
    obtain ⟨m, rfl⟩ := hdvd
    have hm1 : 1 ≤ m := by
      rcases Nat.eq_zero_or_pos m with h | h
      · subst h; omega
      · exact h
    have hxy : (y * m : ℕ) / y = m := Nat.mul_div_cancel_left m hy
    have he0 : 0 ≤ e := by
      have hv1 : (1 : ℚ) ≤ ((y * m : ℕ) : ℚ) / y := by
        rw [le_div_iff₀ hy', one_mul]
        exact_mod_cast Nat.le_mul_of_pos_right y hm1
      have h1 : (2 : ℚ) ^ (0 : ℤ) < (2 : ℚ) ^ (e + 1) := by
        rw [zpow_zero]
        exact lt_of_le_of_lt hv1 heu
      have h2 := (zpow_lt_zpow_iff_right₀ (by norm_num : (1 : ℚ) < 2)).1 h1
      omega
    unfold f64DivTruncAux
    split_ifs with hsgn
    · -- scale 0: e = 52, direct rounding of an exact quotient
      have hst : (e - 52).toNat = 0 := by omega
      rw [hst]
      simp only [pow_zero, mul_one]
      rw [rneDiv_dvd _ _ hy ⟨m, rfl⟩, hxy]
    · -- negative scale: multiply up, divide exactly, scale back down
      push_neg at hsgn
      obtain ⟨t, ht⟩ : ∃ t, (-(e - 52)).toNat = t := ⟨_, rfl⟩
      rw [ht]
      have ht0 : 0 < 2 ^ t := Nat.pos_pow_of_pos t (by norm_num)
      have hdvd2 : y ∣ y * m * 2 ^ t := ⟨m * 2 ^ t, by ring⟩
      rw [rneDiv_dvd _ _ hy hdvd2, hxy]
      have h1 : y * m * 2 ^ t / y = m * 2 ^ t := by
        rw [mul_assoc, Nat.mul_div_cancel_left _ hy]
      rw [h1, Nat.mul_div_cancel _ ht0]
  · -- not divisible: the quotient is strictly between consecutive
    -- integers, and the rounding error is below the distance to both
    obtain ⟨m, hm_def⟩ : ∃ m, x / y = m := ⟨_, rfl⟩
    have hr1 : 1 ≤ x % y := by
      rcases Nat.eq_zero_or_pos (x % y) with h | h
      · exact absurd (Nat.dvd_of_mod_eq_zero h) hdvd
      · exact h
    have hxlo : (y : ℚ) * m + 1 ≤ x := by
      have h1 : y * m + 1 ≤ x := by
        have h2 := Nat.div_add_mod x y
        rw [hm_def] at h2
        omega
      exact_mod_cast h1
    have hxhi : (x : ℚ) ≤ y * m + y - 1 := by
      have h1 : x + 1 ≤ y * m + y := by
        have h2 := Nat.div_add_mod x y
        rw [hm_def] at h2
        have h3 := Nat.mod_lt x hy
        omega
      have h2 : (x : ℚ) + 1 ≤ y * m + y := by exact_mod_cast h1
      linarith
    unfold f64DivTruncAux
    split_ifs with hsgn
    · -- nonnegative scale: the rounded value would be an integer strictly
      -- between m and m + 1; impossible, so this branch cannot occur
      obtain ⟨st, hst⟩ : ∃ u, (e - 52).toNat = u := ⟨_, rfl⟩
      rw [hst]
      obtain ⟨M, hM⟩ : ∃ M, rneDiv x (y * 2 ^ st) = M := ⟨_, rfl⟩
      rw [hM]
      have hP_eq : ((2 ^ st : ℕ) : ℚ) = (2 : ℚ) ^ (e - 52) := by
        rw [← hst]; exact zpow2_toNat (e - 52) hsgn
      have hb : 0 < y * 2 ^ st := by positivity
      have hMge := rneDiv_ge x (y * 2 ^ st) hb
      have hMle := rneDiv_le x (y * 2 ^ st) hb
      rw [hM, Nat.cast_mul, hP_eq] at hMge hMle
      have hQ0 : (0 : ℚ) < (2 : ℚ) ^ (e - 52) := by positivity
      have hyQ0 : (0 : ℚ) < y * (2 : ℚ) ^ (e - 52) := by positivity
      have hyQ2 : (y : ℚ) * (2 : ℚ) ^ (e - 52) < 2 := by
        have h1 : (2 : ℚ) ^ (e - 52) = 2 * (2 : ℚ) ^ (e - 53) := by
          rw [show e - 52 = 1 + (e - 53) by ring, zpow_add₀ h2ne, zpow_one]
        rw [h1]
        nlinarith [hgap]
      have hA : (x : ℚ) ≤ M * (y * (2 : ℚ) ^ (e - 52)) +
          y * (2 : ℚ) ^ (e - 52) / 2 := by
        rw [sub_le_iff_le_add, div_le_iff₀ hyQ0] at hMge
        nlinarith [hMge, hQ0, hy']
      have hB : (M : ℚ) * (y * (2 : ℚ) ^ (e - 52)) ≤ x +
          y * (2 : ℚ) ^ (e - 52) / 2 := by
        have h1 : ((M : ℚ) - 1 / 2) * (y * (2 : ℚ) ^ (e - 52)) ≤ x := by
          calc ((M : ℚ) - 1 / 2) * (y * (2 : ℚ) ^ (e - 52)) ≤
                x / (y * (2 : ℚ) ^ (e - 52)) * (y * (2 : ℚ) ^ (e - 52)) := by
                apply mul_le_mul_of_nonneg_right _ (le_of_lt hyQ0)
                linarith
            _ = x := div_mul_cancel₀ _ (ne_of_gt hyQ0)
        linarith [h1, sq_nonneg ((y : ℚ))]
      have hlow : (m : ℚ) * y < (M * (2 : ℚ) ^ (e - 52)) * y := by
        linarith [hA, hxlo, hyQ2, hyQ0]
      have hhigh : (M * (2 : ℚ) ^ (e - 52)) * y < ((m : ℚ) + 1) * y := by
        linarith [hB, hxhi, hyQ2, hyQ0]
      have hlow' : (m : ℚ) < M * (2 : ℚ) ^ (e - 52) :=
        lt_of_mul_lt_mul_right hlow (le_of_lt hy')
      have hhigh' : (M : ℚ) * (2 : ℚ) ^ (e - 52) < m + 1 :=
        lt_of_mul_lt_mul_right hhigh (le_of_lt hy')
      have hlow_n : m < M * 2 ^ st := by
        have h1 : (m : ℚ) < ((M * 2 ^ st : ℕ) : ℚ) := by
          rw [Nat.cast_mul, hP_eq]; exact hlow'
        exact_mod_cast h1
      have hhigh_n : M * 2 ^ st < m + 1 := by
        have h1 : ((M * 2 ^ st : ℕ) : ℚ) < ((m : ℚ) + 1) := by
          rw [Nat.cast_mul, hP_eq]; exact hhigh'
        exact_mod_cast h1
      have hcontra : False := by omega
      exact hcontra.elim
    · -- negative scale: scaled rounding, then exact truncation to m
      push_neg at hsgn
      obtain ⟨t, ht⟩ : ∃ t, (-(e - 52)).toNat = t := ⟨_, rfl⟩
      rw [ht]
      obtain ⟨M, hM⟩ : ∃ M, rneDiv (x * 2 ^ t) y = M := ⟨_, rfl⟩
      rw [hM]
      have hT_eq : ((2 ^ t : ℕ) : ℚ) = (2 : ℚ) ^ (52 - e) := by
        rw [← ht, zpow2_toNat (-(e - 52)) (by omega)]
        congr 1
        ring
      have hT0 : (0 : ℚ) < (2 : ℚ) ^ (52 - e) := by positivity
      have hyT : (y : ℚ) < 2 * (2 : ℚ) ^ (52 - e) := by
        have h1 : 2 * (2 : ℚ) ^ (52 - e) = (2 : ℚ) ^ (53 - e) := by
          rw [show (53 : ℤ) - e = 1 + (52 - e) by ring, zpow_add₀ h2ne,
            zpow_one]
        have h3 : (0 : ℚ) < (2 : ℚ) ^ (53 - e) := by positivity
        have h4 : (y : ℚ) = y * ((2 : ℚ) ^ (e - 53) * (2 : ℚ) ^ (53 - e)) := by
          rw [← zpow_add₀ h2ne]
          norm_num
        have h5 : (y : ℚ) * ((2 : ℚ) ^ (e - 53) * (2 : ℚ) ^ (53 - e)) =
            ((2 : ℚ) ^ (e - 53) * y) * (2 : ℚ) ^ (53 - e) := by ring
        rw [h1, h4, h5]
        calc ((2 : ℚ) ^ (e - 53) * y) * (2 : ℚ) ^ (53 - e) <
              1 * (2 : ℚ) ^ (53 - e) := mul_lt_mul_of_pos_right hgap h3
          _ = (2 : ℚ) ^ (53 - e) := one_mul _
      have hMge := rneDiv_ge (x * 2 ^ t) y hy
      have hMle := rneDiv_le (x * 2 ^ t) y hy
      rw [hM, Nat.cast_mul, hT_eq] at hMge hMle
      have hA : (x : ℚ) * (2 : ℚ) ^ (52 - e) ≤ M * y + y / 2 := by
        rw [sub_le_iff_le_add, div_le_iff₀ hy'] at hMge
        linarith [hMge]
      have hB : (M : ℚ) * y ≤ x * (2 : ℚ) ^ (52 - e) + y / 2 := by
        have h1 : ((M : ℚ) - 1 / 2) * y ≤ x * (2 : ℚ) ^ (52 - e) := by
          calc ((M : ℚ) - 1 / 2) * y ≤
                x * (2 : ℚ) ^ (52 - e) / y * y := by
                apply mul_le_mul_of_nonneg_right _ (le_of_lt hy')
                linarith
            _ = x * (2 : ℚ) ^ (52 - e) := div_mul_cancel₀ _ (ne_of_gt hy')
        linarith [h1]
      have hlow : (m : ℚ) * (2 : ℚ) ^ (52 - e) * y < M * y := by
        have h1 : ((y : ℚ) * m + 1) * (2 : ℚ) ^ (52 - e) ≤
            x * (2 : ℚ) ^ (52 - e) :=
          mul_le_mul_of_nonneg_right hxlo (le_of_lt hT0)
        linarith [hA, h1, hyT, hT0]
      have hhigh : (M : ℚ) * y < ((m : ℚ) + 1) * (2 : ℚ) ^ (52 - e) * y := by
        have h1 : (x : ℚ) * (2 : ℚ) ^ (52 - e) ≤
            ((y : ℚ) * m + y - 1) * (2 : ℚ) ^ (52 - e) :=
          mul_le_mul_of_nonneg_right hxhi (le_of_lt hT0)
        linarith [hB, h1, hyT, hT0]
      have hlow' : (m : ℚ) * (2 : ℚ) ^ (52 - e) < M :=
        lt_of_mul_lt_mul_right hlow (le_of_lt hy')
      have hhigh' : (M : ℚ) < ((m : ℚ) + 1) * (2 : ℚ) ^ (52 - e) :=
        lt_of_mul_lt_mul_right hhigh (le_of_lt hy')
      have hlow_n : m * 2 ^ t < M := by
        have h1 : ((m * 2 ^ t : ℕ) : ℚ) < M := by
          rw [Nat.cast_mul, hT_eq]; exact hlow'
        exact_mod_cast h1
      have hhigh_n : M < (m + 1) * 2 ^ t := by
        have h1 : (M : ℚ) < (((m + 1) * 2 ^ t : ℕ) : ℚ) := by
          rw [Nat.cast_mul, hT_eq]
          push_cast
          push_cast at hhigh'
          exact hhigh'
        exact_mod_cast h1
      have ht0 : 0 < 2 ^ t := Nat.pos_pow_of_pos t (by norm_num)
      have hge : m ≤ M / 2 ^ t := by
        rw [Nat.le_div_iff_mul_le ht0]
        exact le_of_lt hlow_n
      have hlt : M / 2 ^ t < m + 1 := by
        rw [Nat.div_lt_iff_lt_mul ht0]
        exact hhigh_n
      rw [hm_def]
      exact Nat.le_antisymm (Nat.lt_succ_iff.1 hlt) hge

/-! ### Exactness of the duration-to-binary64 conversion and of the
capacity computation in the sub-`2^53` range -/

theorem durNanosF64_eq_self (d : ℕ) (hd : d < 2 ^ 53) : durNanosF64 d = d := by
  unfold durNanosF64
  have r1 : roundNatF64 (d / 10 ^ 9) = d / 10 ^ 9 :=
    roundNatF64_eq_self _ (lt_of_le_of_lt (Nat.div_le_self d _) hd)
  have r2 : roundNatF64 (10 ^ 9) = 10 ^ 9 :=
    roundNatF64_eq_self _ (by norm_num)
  have r3 : roundNatF64 (d / 10 ^ 9 * 10 ^ 9) = d / 10 ^ 9 * 10 ^ 9 :=
    roundNatF64_eq_self _ (lt_of_le_of_lt (Nat.div_mul_le_self d _) hd)
  have r4 : roundNatF64 (d % 10 ^ 9) = d % 10 ^ 9 :=
    roundNatF64_eq_self _ (lt_trans (Nat.mod_lt d (by norm_num)) (by norm_num))
  rw [r1, r2, r3, r4]
  have r5 : d / 10 ^ 9 * 10 ^ 9 + d % 10 ^ 9 = d := by
    rw [mul_comm]
    exact Nat.div_add_mod d (10 ^ 9)
  rw [r5]
  exact roundNatF64_eq_self d hd

theorem divDurF64U32_exact (a b : ℕ) (ha : a < 2 ^ 53) (hb : 0 < b)
    (hb53 : b < 2 ^ 53) : divDurF64U32 a b = min (a / b) U32MAX := by
  unfold divDurF64U32
  rw [durNanosF64_eq_self a ha, durNanosF64_eq_self b hb53]
  rw [if_neg (by omega)]
  rw [f64DivTrunc_eq_div a b ha hb hb53]

/-- Capacity before `allow_at` is zero (the defensive clock-skew branch
of `Gcr::capacity_at`). -/
theorem capacity_at_deficit (g : Gcr) (t : ℕ) (h : t < g.allow_at) :
    g.capacity_at t = 0 := by
  unfold Gcr.capacity_at instantCheckedDurationSince
  rw [if_neg (by omega)]

/-- In the binary64-exact range (elapsed time and emission interval both
below `2 ^ 53` nanoseconds, positive interval, `u32` burst), the capacity
computation agrees with exact integer floor division. -/
theorem capacity_at_exact (g : Gcr) (t : ℕ) (h1 : g.allow_at ≤ t)
    (h2 : t - g.allow_at < 2 ^ 53) (h3 : 0 < g.emission_interval)
    (h4 : g.emission_interval < 2 ^ 53) (h5 : g.max_burst ≤ U32MAX) :
    g.capacity_at t = min ((t - g.allow_at) / g.emission_interval) g.max_burst := by
  unfold Gcr.capacity_at instantCheckedDurationSince
  rw [if_pos h1]
  show min (divDurF64U32 (t - g.allow_at) g.emission_interval) g.max_burst = _
  rw [divDurF64U32_exact _ _ h2 h3 h4]
  rw [min_assoc, min_eq_right h5]

set_option maxRecDepth 4096

/-! ### Claim C1: the capacity formula -/

/-- Claim C1 counterexample: the capacity query is computed with binary64
division, not exact integer floor division.  For the state with
`emission_interval = 2^54` ns, `allow_at = 0`, `max_burst = 2`, queried
at `t = 2^55 - 1` (so `t ≥ allow_at`), the code returns `2` while exact
floor division gives `min ((2^55 - 1) / 2^54) 2 = 1`: the nanosecond
count `2^55 - 1` rounds up to `2^55` when converted to binary64. -/
theorem C1_counterexample :
    (⟨2 ^ 54, 2 ^ 55, 2 ^ 55, 0, 2⟩ : Gcr).capacity_at (2 ^ 55 - 1) = 2 ∧
    min ((2 ^ 55 - 1 - (⟨2 ^ 54, 2 ^ 55, 2 ^ 55, 0, 2⟩ : Gcr).allow_at) /
        (⟨2 ^ 54, 2 ^ 55, 2 ^ 55, 0, 2⟩ : Gcr).emission_interval)
      (⟨2 ^ 54, 2 ^ 55, 2 ^ 55, 0, 2⟩ : Gcr).max_burst = 1 := by
  constructor
  · decide
  · decide

/-- Claim C1 (amended): `capacity_at` returns `0` when `t < allow_at`;
when `t ≥ allow_at` it returns `min` of the binary64 interval count and
`max_burst`, and this agrees with exact floor division
`min ((t - allow_at) / emission_interval) max_burst` whenever the
elapsed time and the emission interval are below `2^53` nanoseconds (so
the binary64 computation is exact), the interval is positive, and
`max_burst` is a `u32` value.  Outside that range the floating-point
rounding can deviate from exact floor division. -/
theorem C1_capacity_exact_floor (g : Gcr) (t : ℕ) :
    (t < g.allow_at → g.capacity_at t = 0) ∧
    (g.allow_at ≤ t → t - g.allow_at < 2 ^ 53 → 0 < g.emission_interval →
      g.emission_interval < 2 ^ 53 → g.max_burst ≤ U32MAX →
      g.capacity_at t =
        min ((t - g.allow_at) / g.emission_interval) g.max_burst) :=
  ⟨capacity_at_deficit g t,
   fun h1 h2 h3 h4 h5 => capacity_at_exact g t h1 h2 h3 h4 h5⟩

/-- Witness for claim C1: both branches of the amended claim at concrete
states. -/
theorem C1_witness :
    ((⟨2, 6, 6, 7, 3⟩ : Gcr).capacity_at 5 = 0) ∧
    ((⟨2, 6, 6, 0, 3⟩ : Gcr).capacity_at 5 = min ((5 - 0) / 2) 3) :=
  ⟨(C1_capacity_exact_floor ⟨2, 6, 6, 7, 3⟩ 5).1 (by decide),
   (C1_capacity_exact_floor ⟨2, 6, 6, 0, 3⟩ 5).2 (by decide) (by decide)
     (by decide) (by decide) (by decide)⟩

/-! ### Claim C3: oversized requests -/

/-- Claim C3: a request for more than `max_burst` units returns
`RequestTooLarge` immediately; no successor state is produced, so the
limiter (and hence its capacity at every time) is unchanged. -/
theorem C3_request_too_large (g : Gcr) (n now : ℕ) (h : g.max_burst < n) :
    g.request n now = .err .RequestTooLarge := by
  unfold Gcr.request
  rw [if_pos h]

/-- Witness for claim C3. -/
theorem C3_witness :
    (⟨1000, 30000, 50000, 20000, 30⟩ : Gcr).request 31 99999 =
      .err .RequestTooLarge :=
  C3_request_too_large ⟨1000, 30000, 50000, 20000, 30⟩ 31 99999 (by decide)

/-! ### Claim C7: panics -/

/-- Claim C7 refutation: `Gcr::new(1, Duration::MAX, Some(2))` panics.
The `delay_tolerance` multiplication `emission_interval * max_burst` is
the panicking `Duration::mul`, not a checked operation, so overflow there
is abnormal termination rather than a `ParametersOutOfRange` value. -/
theorem C7_new_panics : Gcr.new 1 DMAX (some 2) 0 = .panics := by decide

/-! ### Claims C2, C4, C10: the request path -/

/-- Claim C2 counterexample: at the exact boundary
`allow_at + n * emission_interval = now`, `checked_duration_since`
returns `Some 0` and the code returns `DeniedFor 0` instead of admitting
the request.  The state has `emission_interval = 2^53 + 3` ns and
`max_burst = 3`; binary64 rounding makes `capacity_at now = 2 < 3`
even though `3` whole intervals have elapsed, so the denial branch is
reached with `allow_time = now`. -/
theorem C2_counterexample :
    3 ≤ (⟨2 ^ 53 + 3, 3 * (2 ^ 53 + 3), 3 * (2 ^ 53 + 3), 0, 3⟩ : Gcr).max_burst ∧
    (⟨2 ^ 53 + 3, 3 * (2 ^ 53 + 3), 3 * (2 ^ 53 + 3), 0, 3⟩ : Gcr).capacity_at
      (3 * (2 ^ 53 + 3)) < 3 ∧
    (⟨2 ^ 53 + 3, 3 * (2 ^ 53 + 3), 3 * (2 ^ 53 + 3), 0, 3⟩ : Gcr).allow_at +
      3 * (⟨2 ^ 53 + 3, 3 * (2 ^ 53 + 3), 3 * (2 ^ 53 + 3), 0, 3⟩ :
        Gcr).emission_interval ≤ 3 * (2 ^ 53 + 3) ∧
    (⟨2 ^ 53 + 3, 3 * (2 ^ 53 + 3), 3 * (2 ^ 53 + 3), 0, 3⟩ : Gcr).request 3
      (3 * (2 ^ 53 + 3)) = .err (.DeniedFor 0) := by
  refine ⟨by decide, by decide, by decide, by decide⟩

/-- Claim C2 (amended): for a state satisfying the limiter invariant,
when `n ≤ max_burst`, `n` exceeds the computed capacity, and the
recomputed `allow_time = allow_at + n * emission_interval` is STRICTLY
before `now`, the request falls through to admission and succeeds.  (At
exact equality `allow_time = now` the code instead returns
`DeniedFor 0`, because `checked_duration_since` yields `Some 0`.) -/
theorem C2_request_admits_past_allow_time (g : Gcr) (n now : ℕ)
    (hInv : g.Inv) (hn : n ≤ g.max_burst) (hcap : g.capacity_at now < n)
    (hlt : g.allow_at + n * g.emission_interval < now) :
    g.request n now = .ok
      { g with
        theoretical_arrival_time :=
          max g.theoretical_arrival_time now + g.emission_interval * n,
        allow_at :=
          max g.theoretical_arrival_time now + g.emission_interval * n -
            g.delay_tolerance } := by
  obtain ⟨hdt_eq, hdt_max, hdt_tat, _, _⟩ := hInv
  have hbound : g.emission_interval * n ≤ DMAX := by
    calc g.emission_interval * n ≤ g.emission_interval * g.max_burst :=
          Nat.mul_le_mul_left _ hn
      _ = g.delay_tolerance := hdt_eq.symm
      _ ≤ DMAX := hdt_max
  have hmul : durMulU32 g.emission_interval n =
      some (g.emission_interval * n) := by
    unfold durMulU32
    rw [if_pos hbound]
  have hlt' : g.allow_at + g.emission_interval * n < now := by
    rw [mul_comm n g.emission_interval] at hlt
    exact hlt
  have hdeny : instantCheckedDurationSince
      (g.allow_at + g.emission_interval * n) now = none := by
    unfold instantCheckedDurationSince
    rw [if_neg (by omega)]
  have hsub : instantCheckedSub
      (max g.theoretical_arrival_time now + g.emission_interval * n)
      g.delay_tolerance =
      some (max g.theoretical_arrival_time now + g.emission_interval * n -
        g.delay_tolerance) := by
    unfold instantCheckedSub
    rw [if_pos]
    calc g.delay_tolerance ≤ g.theoretical_arrival_time := hdt_tat
      _ ≤ max g.theoretical_arrival_time now := le_max_left _ _
      _ ≤ max g.theoretical_arrival_time now + g.emission_interval * n :=
          Nat.le_add_right _ _
  unfold Gcr.request
  rw [if_neg (not_lt.2 hn), if_pos hcap]
  simp only [hmul, hdeny, hsub]

/-- Witness for claim C2: for the counterexample state one nanosecond
later, `allow_time < now` strictly and the request is admitted. -/
theorem C2_witness :
    (⟨2 ^ 53 + 3, 3 * (2 ^ 53 + 3), 3 * (2 ^ 53 + 3), 0, 3⟩ : Gcr).request 3
      (3 * (2 ^ 53 + 3) + 1) = .ok
      ⟨2 ^ 53 + 3, 3 * (2 ^ 53 + 3),
        max (3 * (2 ^ 53 + 3)) (3 * (2 ^ 53 + 3) + 1) + (2 ^ 53 + 3) * 3,
        max (3 * (2 ^ 53 + 3)) (3 * (2 ^ 53 + 3) + 1) + (2 ^ 53 + 3) * 3 -
          3 * (2 ^ 53 + 3), 3⟩ :=
  C2_request_admits_past_allow_time
    ⟨2 ^ 53 + 3, 3 * (2 ^ 53 + 3), 3 * (2 ^ 53 + 3), 0, 3⟩ 3
    (3 * (2 ^ 53 + 3) + 1) (by decide) (by decide) (by decide) (by decide)

/-- Claim C4: an under-provisioned request whose `allow_time` lies
strictly in the future is denied with exactly the remaining wait
`allow_time - now`; no successor state is produced, so the limiter is
unchanged. -/
theorem C4_denied_for_exact_wait (g : Gcr) (n now : ℕ) (hInv : g.Inv)
    (hn : n ≤ g.max_burst) (hcap : g.capacity_at now < n)
    (hlt : now < g.allow_at + n * g.emission_interval) :
    g.request n now =
      .err (.DeniedFor (g.allow_at + n * g.emission_interval - now)) := by
  obtain ⟨hdt_eq, hdt_max, _, _, _⟩ := hInv
  have hbound : g.emission_interval * n ≤ DMAX := by
    calc g.emission_interval * n ≤ g.emission_interval * g.max_burst :=
          Nat.mul_le_mul_left _ hn
      _ = g.delay_tolerance := hdt_eq.symm
      _ ≤ DMAX := hdt_max
  have hmul : durMulU32 g.emission_interval n =
      some (g.emission_interval * n) := by
    unfold durMulU32
    rw [if_pos hbound]
  have hlt' : now < g.allow_at + g.emission_interval * n := by
    rw [mul_comm n g.emission_interval] at hlt
    exact hlt
  have hdeny : instantCheckedDurationSince
      (g.allow_at + g.emission_interval * n) now =
      some (g.allow_at + g.emission_interval * n - now) := by
    unfold instantCheckedDurationSince
    rw [if_pos (le_of_lt hlt')]
  unfold Gcr.request
  rw [if_neg (not_lt.2 hn), if_pos hcap]
  simp only [hmul, hdeny]
  rw [mul_comm n g.emission_interval]

/-- Witness for claim C4. -/
theorem C4_witness :
    (⟨2, 6, 6, 0, 3⟩ : Gcr).request 2 1 = .err (.DeniedFor (0 + 2 * 2 - 1)) :=
  C4_denied_for_exact_wait ⟨2, 6, 6, 0, 3⟩ 2 1 (by decide) (by decide)
    (by decide) (by decide)

/-- Claim C10: under the limiter invariant a zero-unit request always
succeeds: it passes the `max_burst` check (`0 ≤ max_burst`), the
capacity check (`0 ≤ capacity`), and the admission arithmetic cannot
underflow because `delay_tolerance ≤ theoretical_arrival_time`. -/
theorem C10_request_zero_succeeds (g : Gcr) (now : ℕ) (hInv : g.Inv) :
    g.request 0 now = .ok
      { g with
        theoretical_arrival_time := max g.theoretical_arrival_time now,
        allow_at := max g.theoretical_arrival_time now - g.delay_tolerance } := by
  obtain ⟨_, _, hdt_tat, _, _⟩ := hInv
  have hmul : durMulU32 g.emission_interval 0 = some 0 := by
    unfold durMulU32
    rw [Nat.mul_zero, if_pos (Nat.zero_le _)]
  have hsub : instantCheckedSub (max g.theoretical_arrival_time now)
      g.delay_tolerance =
      some (max g.theoretical_arrival_time now - g.delay_tolerance) := by
    unfold instantCheckedSub
    rw [if_pos]
    calc g.delay_tolerance ≤ g.theoretical_arrival_time := hdt_tat
      _ ≤ max g.theoretical_arrival_time now := le_max_left _ _
  unfold Gcr.request
  rw [if_neg (Nat.not_lt_zero _), if_neg (Nat.not_lt_zero _)]
  simp only [hmul, Nat.add_zero, hsub]

/-- Witness for claim C10: a zero-unit request in deficit still
succeeds. -/
theorem C10_witness :
    (⟨2, 6, 6, 0, 3⟩ : Gcr).request 0 7 = .ok ⟨2, 6, 7, 1, 3⟩ :=
  C10_request_zero_succeeds ⟨2, 6, 6, 0, 3⟩ 7 (by decide)

/-! ### Claims C5, C6: construction -/

/-- Characterization of successful construction: with a nonzero rate, no
`delay_tolerance` overflow, and enough elapsed clock time for the
`allow_at` subtraction, `Gcr::new` succeeds and fills in the fields
computed by the source. -/
theorem new_ok (rate period : ℕ) (mbO : Option ℕ) (now : ℕ)
    (h0 : rate ≠ 0) (hDM : period / rate * mbO.getD rate ≤ DMAX)
    (hnow : period / rate * mbO.getD rate ≤ now) :
    Gcr.new rate period mbO now = .ok
      ⟨period / rate, period / rate * mbO.getD rate, now,
        now - period / rate * mbO.getD rate, mbO.getD rate⟩ := by
  unfold Gcr.new durCheckedDiv durMulU32 instantCheckedSub
  rw [if_neg h0]
  simp only [if_pos hDM, if_pos hnow]

/-- Capacity immediately after a successful construction, in the exact
binary64 range: the full burst is available. -/
theorem capacity_after_new (rate period : ℕ) (mbO : Option ℕ) (now : ℕ)
    (g : Gcr) (hok : Gcr.new rate period mbO now = .ok g)
    (hei : 0 < period / rate)
    (hdt : period / rate * mbO.getD rate < 2 ^ 53)
    (hmb : mbO.getD rate ≤ U32MAX) :
    g.capacity_at now = mbO.getD rate := by
  have h0 : rate ≠ 0 := by
    intro h
    subst h
    rw [Nat.div_zero] at hei
    exact absurd hei (lt_irrefl 0)
  have hDM : period / rate * mbO.getD rate ≤ DMAX := by
    have : (2 : ℕ) ^ 53 ≤ DMAX := by norm_num [DMAX]
    omega
  unfold Gcr.new durCheckedDiv durMulU32 instantCheckedSub at hok
  rw [if_neg h0] at hok
  simp only [if_pos hDM] at hok
  split_ifs at hok with hnow
  · -- successful construction: read off the fields
    have hg : g = ⟨period / rate, period / rate * mbO.getD rate, now,
        now - period / rate * mbO.getD rate, mbO.getD rate⟩ := by
      injection hok with h1
      exact h1.symm
    subst hg
    rcases Nat.eq_zero_or_pos (mbO.getD rate) with hmb0 | hmb0
    · -- zero burst: the minimum with `max_burst = 0` is `0`
      unfold Gcr.capacity_at instantCheckedDurationSince
      dsimp only
      rw [if_pos (by omega)]
      show min (divDurF64U32 _ _) (mbO.getD rate) = mbO.getD rate
      rw [hmb0]
      exact Nat.min_zero _
    · -- positive burst: exact division recovers the full burst
      have hei53 : period / rate < 2 ^ 53 := by
        calc period / rate ≤ period / rate * mbO.getD rate :=
              Nat.le_mul_of_pos_right _ hmb0
          _ < 2 ^ 53 := hdt
      rw [capacity_at_exact _ now (by dsimp only; omega)
        (by dsimp only; omega) hei hei53 hmb]
      show min ((now - (now - period / rate * mbO.getD rate)) /
          (period / rate)) (mbO.getD rate) = _
      have helap : now - (now - period / rate * mbO.getD rate) =
          period / rate * mbO.getD rate := by omega
      rw [helap, Nat.mul_div_cancel_left _ hei, min_self]

/-- Every state produced by a successful `Gcr::new` with a `u32`
`max_burst` argument satisfies the limiter invariant `Gcr.Inv`; this
justifies assuming `Gcr.Inv` for "every limiter state" in the request
and adjustment theorems. -/
theorem new_establishes_Inv (rate period : ℕ) (mbO : Option ℕ) (now : ℕ)
    (g : Gcr) (hok : Gcr.new rate period mbO now = .ok g)
    (hmb : mbO.getD rate < 2 ^ 32) : g.Inv := by
  rcases Nat.eq_zero_or_pos rate with h0 | h0
  · subst h0
    unfold Gcr.new durCheckedDiv at hok
    rw [if_pos rfl] at hok
    exact RustResult.noConfusion hok
  unfold Gcr.new durCheckedDiv durMulU32 instantCheckedSub at hok
  rw [if_neg (by omega)] at hok
  simp only [] at hok
  split_ifs at hok with hDM
  · simp only [] at hok
    split_ifs at hok with hnow
    · have hg : g = ⟨period / rate, period / rate * mbO.getD rate, now,
          now - period / rate * mbO.getD rate, mbO.getD rate⟩ := by
        injection hok with h1
        exact h1.symm
      subst hg
      exact ⟨rfl, hDM, hnow, rfl, hmb⟩

/-- Claim C5 counterexample: `new(2, Duration::from_nanos(1), None)`
succeeds with `emission_interval = 0` (the checked division only fails
for `rate = 0`), and the capacity at the construction instant is `0`,
not the defaulted burst `rate = 2`: the f64 division `0.0 / 0.0` is NaN,
which the `as u32` cast maps to `0`. -/
theorem C5_counterexample :
    Gcr.new 2 1 none 0 = .ok ⟨0, 0, 0, 0, 2⟩ ∧
    (⟨0, 0, 0, 0, 2⟩ : Gcr).capacity_at 0 = 0 := by
  refine ⟨by decide, by decide⟩

/-- Claim C5 (amended): immediately after a successful
`new(rate, period, Some(burst))` the capacity at the construction
instant equals `burst` (and with `max_burst` omitted it equals `rate`),
PROVIDED the emission interval is positive and
`delay_tolerance = emission_interval * max_burst` is below `2^53`
nanoseconds so the binary64 capacity computation is exact.  When
`period < rate` nanoseconds (zero interval) the capacity is `0`
instead. -/
theorem C5_initial_capacity (rate period : ℕ) (mbO : Option ℕ) (now : ℕ)
    (g : Gcr) (hok : Gcr.new rate period mbO now = .ok g)
    (hei : 0 < period / rate)
    (hdt : period / rate * mbO.getD rate < 2 ^ 53)
    (hmb : mbO.getD rate ≤ U32MAX) :
    g.capacity_at now = mbO.getD rate :=
  capacity_after_new rate period mbO now g hok hei hdt hmb

/-- Witness for claim C5: `new(3, 12ns, None)` at clock value 100 gives
a limiter with full capacity `3` immediately. -/
theorem C5_witness : (⟨4, 12, 100, 88, 3⟩ : Gcr).capacity_at 100 = 3 :=
  C5_initial_capacity 3 12 none 100 ⟨4, 12, 100, 88, 3⟩ (by decide)
    (by decide) (by decide) (by decide)

/-- Claim C6 counterexample: construction succeeds with
`emission_interval = 0` when `period < rate` (here
`new(2, Duration::from_nanos(1), None)` at clock value 5), so it is not
the case that construction fails whenever `period / rate` is not
strictly positive. -/
theorem C6_counterexample :
    Gcr.new 2 1 none 5 = .ok ⟨0, 0, 5, 5, 2⟩ ∧
    (⟨0, 0, 5, 5, 2⟩ : Gcr).emission_interval = 0 := by
  refine ⟨by decide, by decide⟩

/-- Claim C6 (amended): construction fails with `ParametersOutOfRange`
exactly when `rate = 0` (the checked division) or when the `allow_at`
subtraction underflows the clock origin; a zero `emission_interval`
(from `period < rate` in nanoseconds) does NOT make construction fail,
and a successful construction carries
`emission_interval = period / rate`, which may be zero.  (Overflow of the
`delay_tolerance` multiplication panics instead; see claim C7.) -/
theorem C6_construction_failure_iff (rate period : ℕ) (mbO : Option ℕ)
    (now : ℕ) :
    (rate = 0 → Gcr.new rate period mbO now = .err .ParametersOutOfRange) ∧
    (0 < rate → period / rate * mbO.getD rate ≤ DMAX →
      period / rate * mbO.getD rate ≤ now →
      Gcr.new rate period mbO now = .ok
        ⟨period / rate, period / rate * mbO.getD rate, now,
          now - period / rate * mbO.getD rate, mbO.getD rate⟩) ∧
    (0 < rate → period / rate * mbO.getD rate ≤ DMAX →
      now < period / rate * mbO.getD rate →
      Gcr.new rate period mbO now = .err .ParametersOutOfRange) := by
  refine ⟨?_, ?_, ?_⟩
  · intro h0
    subst h0
    unfold Gcr.new durCheckedDiv
    rw [if_pos rfl]
  · intro h0 hDM hnow
    exact new_ok rate period mbO now (by omega) hDM hnow
  · intro h0 hDM hnow
    unfold Gcr.new durCheckedDiv durMulU32 instantCheckedSub
    rw [if_neg (by omega)]
    simp only [if_pos hDM, if_neg (by omega : ¬ period / rate *
      mbO.getD rate ≤ now)]

/-- Witness for claim C6: all three branches at concrete inputs —
zero rate fails, `period < rate` succeeds with a zero interval, and a
too-large `delay_tolerance` underflows the clock. -/
theorem C6_witness :
    Gcr.new 0 7 none 3 = .err .ParametersOutOfRange ∧
    Gcr.new 2 1 none 9 = .ok ⟨0, 0, 9, 9, 2⟩ ∧
    Gcr.new 1 10 none 5 = .err .ParametersOutOfRange :=
  ⟨(C6_construction_failure_iff 0 7 none 3).1 rfl,
   (C6_construction_failure_iff 2 1 none 9).2.1 (by decide) (by decide)
     (by decide),
   (C6_construction_failure_iff 1 10 none 5).2.2 (by decide) (by decide)
     (by decide)⟩

/-! ### Claims C8, C9: parameter adjustment -/

/-- Claim C9 counterexample: for a limiter in deficit (`now < allow_at`),
`adjust(2, Duration::from_nanos(1), None)` succeeds and produces the
freshly constructed state (deficit discarded), but the capacity at that
instant is `0`, not the full new `max_burst = 2`: the fresh state has
`emission_interval = 0` and the `0.0 / 0.0` division is NaN, cast to
`0`. -/
theorem C9_counterexample :
    (⟨1, 2, 3, 1, 2⟩ : Gcr).adjust 2 1 none 0 0 = .ok ⟨0, 0, 0, 0, 2⟩ ∧
    (⟨0, 0, 0, 0, 2⟩ : Gcr).capacity_at 0 = 0 ∧
    (⟨0, 0, 0, 0, 2⟩ : Gcr).max_burst = 2 := by
  refine ⟨by decide, by decide, by decide⟩

/-- Claim C9 (amended): when the old limiter is in deficit
(`now < allow_at`), `adjust` returns exactly the result of a fresh
construction with the new parameters (the deficit is discarded); and the
capacity of that fresh state at the adjustment instant equals the new
full `max_burst` PROVIDED the new emission interval is positive and the
new `delay_tolerance` is below `2^53` nanoseconds (the binary64-exact
range).  With a zero new interval the capacity is `0` instead. -/
theorem C9_adjust_in_deficit (g : Gcr) (rate period : ℕ) (mbO : Option ℕ)
    (now : ℕ) (hdef : now < g.allow_at) :
    g.adjust rate period mbO now now = Gcr.new rate period mbO now ∧
    (∀ g2, Gcr.new rate period mbO now = .ok g2 → 0 < period / rate →
      period / rate * mbO.getD rate < 2 ^ 53 → mbO.getD rate ≤ U32MAX →
      g2.capacity_at now = mbO.getD rate) := by
  constructor
  · have hnone : instantCheckedDurationSince now g.allow_at = none := by
      unfold instantCheckedDurationSince
      rw [if_neg (by omega)]
    cases hR : Gcr.new rate period mbO now with
    | ok nr =>
      unfold Gcr.adjust
      simp only [hR, hnone]
    | err e =>
      unfold Gcr.adjust
      simp only [hR]
    | panics =>
      unfold Gcr.adjust
      simp only [hR]
  · intro g2 hok h1 h2 h3
    exact capacity_after_new rate period mbO now g2 hok h1 h2 h3

/-- Witness for claim C9: a limiter in deficit adjusted to
`(3, 12ns, None)`: the result is the fresh construction, whose capacity
is the full new burst `3`. -/
theorem C9_witness :
    (⟨1, 2, 102, 100, 2⟩ : Gcr).adjust 3 12 none 50 50 =
      Gcr.new 3 12 none 50 ∧
    (⟨4, 12, 50, 38, 3⟩ : Gcr).capacity_at 50 = 3 :=
  ⟨(C9_adjust_in_deficit ⟨1, 2, 102, 100, 2⟩ 3 12 none 50 (by decide)).1,
   (C9_adjust_in_deficit ⟨1, 2, 102, 100, 2⟩ 3 12 none 50 (by decide)).2
     ⟨4, 12, 50, 38, 3⟩ (by decide) (by decide) (by decide) (by decide)⟩

/-- Claim C8 counterexample: adjusting with capacity available and no
elapsed time does NOT always preserve `capacity()`: shrinking
`max_burst` below the current capacity clamps it.  Here the old state
has capacity `2` at `now = 2`, and `adjust(1, 1ns, Some(1))` at the same
instant leaves capacity `1`. -/
theorem C8_counterexample :
    (⟨1, 2, 2, 0, 2⟩ : Gcr).allow_at ≤ 2 ∧
    (⟨1, 2, 2, 0, 2⟩ : Gcr).adjust 1 1 (some 1) 2 2 = .ok ⟨1, 1, 1, 0, 1⟩ ∧
    (⟨1, 2, 2, 0, 2⟩ : Gcr).capacity_at 2 = 2 ∧
    (⟨1, 1, 1, 0, 1⟩ : Gcr).capacity_at 2 = 1 := by
  refine ⟨by decide, by decide, by decide, by decide⟩

/-- Claim C8 (amended): a same-instant successful `adjust` preserves the
capacity reported by `capacity()` PROVIDED the whole-interval count
`E = (now - allow_at) / emission_interval` does not exceed either the
old or the new `max_burst` (so neither clamp moves), and both the old
and new quantities lie in the binary64-exact range (elapsed time,
intervals and delay tolerances below `2^53` ns, positive intervals,
`u32` bursts).  Shrinking the burst below the current capacity, or a
zero new interval, can change the capacity. -/
theorem C8_adjust_preserves_capacity (g : Gcr) (rate period : ℕ)
    (mbO : Option ℕ) (now : ℕ) (hInv : g.Inv)
    (hle : g.allow_at ≤ now) (helap : now - g.allow_at < 2 ^ 53)
    (hei : 0 < g.emission_interval) (hei53 : g.emission_interval < 2 ^ 53)
    (hrate : 0 < period / rate) (hrate53 : period / rate < 2 ^ 53)
    (hdt : period / rate * mbO.getD rate < 2 ^ 53)
    (hdtnow : period / rate * mbO.getD rate ≤ now)
    (hmb : mbO.getD rate ≤ U32MAX)
    (hEold : (now - g.allow_at) / g.emission_interval ≤ g.max_burst)
    (hEnew : (now - g.allow_at) / g.emission_interval ≤ mbO.getD rate) :
    ∃ g2, g.adjust rate period mbO now now = .ok g2 ∧
      g2.capacity_at now = g.capacity_at now := by
  obtain ⟨_, _, _, _, hmb32⟩ := hInv
  have h0 : rate ≠ 0 := by
    intro h
    subst h
    rw [Nat.div_zero] at hrate
    exact absurd hrate (lt_irrefl 0)
  have hmbU : g.max_burst ≤ U32MAX := by
    unfold U32MAX
    omega
  have hDM : period / rate * mbO.getD rate ≤ DMAX := by
    have h1 : (2 : ℕ) ^ 53 ≤ DMAX := by norm_num [DMAX]
    omega
  have hnew := new_ok rate period mbO now h0 hDM hdtnow
  have hsome : instantCheckedDurationSince now g.allow_at =
      some (now - g.allow_at) := by
    unfold instantCheckedDurationSince
    rw [if_pos hle]
  -- the interval count computed by `adjust` is the exact one
  have hEU : (now - g.allow_at) / g.emission_interval ≤ U32MAX :=
    le_trans hEold hmbU
  have hk : divDurF64U32 (now - g.allow_at) g.emission_interval =
      (now - g.allow_at) / g.emission_interval := by
    rw [divDurF64U32_exact _ _ helap hei hei53]
    exact min_eq_left hEU
  have hadv_le : period / rate * ((now - g.allow_at) / g.emission_interval) ≤
      period / rate * mbO.getD rate := Nat.mul_le_mul_left _ hEnew
  have hmul : durMulU32 (period / rate)
      ((now - g.allow_at) / g.emission_interval) =
      some (period / rate * ((now - g.allow_at) / g.emission_interval)) := by
    unfold durMulU32
    rw [if_pos (by omega)]
  have hsub : instantCheckedSub now
      (period / rate * ((now - g.allow_at) / g.emission_interval)) =
      some (now -
        period / rate * ((now - g.allow_at) / g.emission_interval)) := by
    unfold instantCheckedSub
    rw [if_pos (by omega)]
  refine ⟨⟨period / rate, period / rate * mbO.getD rate,
    now - period / rate * ((now - g.allow_at) / g.emission_interval) +
      period / rate * mbO.getD rate,
    now - period / rate * ((now - g.allow_at) / g.emission_interval),
    mbO.getD rate⟩, ?_, ?_⟩
  · unfold Gcr.adjust
    simp only [hnew, hsome, hk, hmul, hsub]
  · -- capacity of the adjusted state equals capacity of the old state
    have hcap_old : g.capacity_at now =
        (now - g.allow_at) / g.emission_interval := by
      rw [capacity_at_exact g now hle helap hei hei53 hmbU]
      exact min_eq_left hEold
    have hcap_new : (⟨period / rate, period / rate * mbO.getD rate,
        now - period / rate * ((now - g.allow_at) / g.emission_interval) +
          period / rate * mbO.getD rate,
        now - period / rate * ((now - g.allow_at) / g.emission_interval),
        mbO.getD rate⟩ : Gcr).capacity_at now =
        (now - g.allow_at) / g.emission_interval := by
      rw [capacity_at_exact _ now (by dsimp only; omega)
        (by dsimp only; omega) hrate hrate53 hmb]
      show min ((now - (now - period / rate *
          ((now - g.allow_at) / g.emission_interval))) / (period / rate))
        (mbO.getD rate) = _
      have helap2 : now - (now - period / rate *
          ((now - g.allow_at) / g.emission_interval)) =
          period / rate * ((now - g.allow_at) / g.emission_interval) := by
        omega
      rw [helap2, Nat.mul_div_cancel_left _ hrate]
      exact min_eq_left hEnew
    rw [hcap_old]
    exact hcap_new

/-- Witness for claim C8: adjusting `(rate 4 per 8ns, burst 4)` with
capacity `2` available to `(3 per 3ns, burst 3)` at the same instant
keeps the capacity at `2`. -/
theorem C8_witness :
    ∃ g2, (⟨2, 8, 108, 100, 4⟩ : Gcr).adjust 3 3 (some 3) 105 105 =
        .ok g2 ∧
      g2.capacity_at 105 = (⟨2, 8, 108, 100, 4⟩ : Gcr).capacity_at 105 :=
  C8_adjust_preserves_capacity ⟨2, 8, 108, 100, 4⟩ 3 3 (some 3) 105
    (by decide) (by decide) (by decide) (by decide) (by decide) (by decide)
    (by decide) (by decide) (by decide) (by decide) (by decide) (by decide)
